import Mathlib

/-!
Shallow embedding of the statistical core of the p-val repository
(src/utils/stats.ts and the simulation worker), over an arbitrary linear
ordered field `K`.  The transcendental primitives used by the source
(Math.exp, Math.log, Math.sqrt, Math.sin, Math.cos, Math.PI) are bundled in
a structure `GMath K`, so every definition below is computable given those
primitives; the program itself is the instantiation `realMath` at `K = ℝ`
with the genuine real functions.  `betacf` uses no transcendental
primitives at all, so it can be evaluated exactly over `ℚ` and transported
to `ℝ` along the cast ring homomorphism.
-/

/-- Bundle of the primitive math functions the source calls on `Math`. -/
structure GMath (K : Type) where
  exp : K → K
  log : K → K
  sqrt : K → K
  sin : K → K
  cos : K → K
  pi : K

variable {K : Type} [LinearOrderedField K]

/-- Iteration cap of `betacf` (source: `const MAX_ITER = 200`). -/
def MAX_ITER : ℕ := 200

/-- Convergence tolerance of `betacf` (source: `const EPS = 3e-7`). -/
def EPS : K := 3e-7

/-- Mutable state of the `betacf` loop: the variables `am, bm, az, bz` and
the iteration counter `em` (in the source `em` is carried as a number and
used in the arithmetic of each step). -/
structure BcfState (K : Type) where
  am : K
  bm : K
  az : K
  bz : K
  em : K

/-- State before the first iteration of `betacf` (source lines 86-92):
`am = bm = az = 1`, `bz = 1 - qab*x/qap` with `qab = a+b`, `qap = a+1`,
and the first iteration uses `em = 1`. -/
def bcfInit (x a b : K) : BcfState K :=
  ⟨1, 1, 1, 1 - ((a + b) * x) / (a + 1), 1⟩

/-- One iteration of the `betacf` loop body (source lines 94-111):
the even step, the odd step, and the renormalisation by `bpp`. -/
def bcfStep (x a b : K) (s : BcfState K) : BcfState K :=
  let qab := a + b
  let qap := a + 1
  let qam := a - 1
  let em := s.em
  let tem := em + em
  let d1 := (em * (b - em) * x) / ((qam + tem) * (a + tem))
  let ap := s.az + d1 * s.am
  let bp := s.bz + d1 * s.bm
  let d2 := -((a + em) * (qab + em) * x) / ((a + tem) * (qap + tem))
  let app := ap + d2 * s.az
  let bpp := bp + d2 * s.bz
  ⟨ap / bpp, bp / bpp, app / bpp, 1, em + 1⟩

/-- The `betacf` loop: run one step, return the new approximant `az` as
soon as it changes by less than `EPS` times its own magnitude, and after
the fuel (the remaining iterations out of `MAX_ITER`) is exhausted return
the last approximant (source lines 94-114). -/
def bcfLoop (x a b : K) : ℕ → BcfState K → K
  | 0, s => s.az
  | fuel + 1, s =>
    let s2 := bcfStep x a b s
    if |s2.az - s.az| < EPS * |s2.az| then s2.az
    else bcfLoop x a b fuel s2

/-- Continued fraction for the incomplete beta (source lines 82-115). -/
def betacf (x a b : K) : K :=
  bcfLoop x a b MAX_ITER (bcfInit x a b)

/-- The approximant `az` obtained after `m` iterations of the loop body
(no early exit), used to state what `betacf` returns. -/
def bcfApprox (x a b : K) (m : ℕ) : K :=
  ((bcfStep x a b)^[m] (bcfInit x a b)).az

/-- The convergence test of iteration `m ≥ 1` of `betacf`: the running
approximant changes by less than `EPS` times its own magnitude. -/
def bcfConv (x a b : K) (m : ℕ) : Prop :=
  |bcfApprox x a b m - bcfApprox x a b (m - 1)| < EPS * |bcfApprox x a b m|

/-- Lanczos coefficient table `p` of `logGamma` (source lines 119-128). -/
def pcoef : ℕ → K
  | 0 => 676.5203681218851
  | 1 => -1259.1392167224028
  | 2 => 771.32342877765313
  | 3 => -176.61502916214059
  | 4 => 12.507343278686905
  | 5 => -0.13857109526572012
  | 6 => 9.9843695780195716e-6
  | 7 => 1.5056327351493116e-7
  | _ => 0

/-- The non-recursive Lanczos branch of `logGamma` (source lines 133-137,
with `g = 7`): after `z -= 1`, accumulate `x += p[i]/(z+i+1)` for
`i = 0..7` starting from `0.99999999999980993`, set `t = z + 7 + 0.5`, and
return `0.5*log(2*pi) + (z+0.5)*log(t) - t + log(x)`. -/
def lanczos (g : GMath K) (z : K) : K :=
  let z1 := z - 1
  let x := (List.range 8).foldl (fun acc i => acc + pcoef i / (z1 + (i : K) + 1))
    0.99999999999980993
  let t := z1 + 7 + 0.5
  0.5 * g.log (2 * g.pi) + (z1 + 0.5) * g.log t - t + g.log x

/-- Faithful model of the recursion of `logGamma` (source lines 130-132):
for `z < 0.5` the reflection branch calls `logGamma (1 - z)` recursively;
the fuel counts the recursive calls still allowed, `none` meaning the
recursion would go deeper than the fuel permits. -/
def logGammaRec (g : GMath K) : ℕ → K → Option K
  | 0, _ => none
  | fuel + 1, z =>
    if z < 0.5 then
      (logGammaRec g fuel (1 - z)).map fun r =>
        g.log g.pi - g.log (g.sin (g.pi * z)) - r
    else
      some (lanczos g z)

/-- Lanczos log-gamma (source lines 118-138).  For `z < 0.5` the source
recurses via the reflection formula on `1 - z`; since `1 - z > 0.5` there,
that single recursive call takes the non-recursive branch, so the
recursion is equivalent to this total definition (the equivalence is the
content of the claim about termination of `logGamma`). -/
def logGamma (g : GMath K) (z : K) : K :=
  if z < 0.5 then g.log g.pi - g.log (g.sin (g.pi * z)) - lanczos g (1 - z)
  else lanczos g z

/-- Regularized incomplete beta (source lines 66-79).  The two result
branches inline the source variable `cf = betacf(symm ? x : 1-x, a, b)`;
note the source passes `(1-x, a, b)` to `betacf` in the non-symm branch,
it does not swap `a` and `b`. -/
def regularizedIncompleteBeta (g : GMath K) (x a b : K) : K :=
  if x ≤ 0 then 0
  else if 1 ≤ x then 1
  else
    let bt := g.exp (logGamma g (a + b) - logGamma g a - logGamma g b +
      a * g.log x + b * g.log (1 - x))
    if x < (a + 1) / (a + b + 2) then bt * betacf x a b / a
    else 1 - bt * betacf (1 - x) a b / b

/-- Student-t CDF via the regularized incomplete beta (source lines 58-63). -/
def studentTCdf (g : GMath K) (t v : K) : K :=
  let x := v / (v + t * t)
  let ib := regularizedIncompleteBeta g x (v / 2) 0.5
  if 0 ≤ t then 1 - 0.5 * ib else 0.5 * ib

/-- Modelled from the spec: `ss.mean` of the external simple-statistics
library (the library is not part of this repository), the arithmetic mean
of a sample. -/
def mean (xs : List K) : K :=
  xs.sum / (xs.length : K)

/-- Modelled from the spec: `ss.variance` of the external simple-statistics
library (the library is not part of this repository); the spec states the
sample variances are the unbiased, n-1-denominator ones. -/
def variance (xs : List K) : K :=
  ((xs.map fun v => (v - mean xs) ^ 2).sum) / ((xs.length : K) - 1)

/-- Result record of the two-sample t test: `{ t, df, p }`. -/
structure TestResult (K : Type) where
  t : K
  df : K
  p : K

/-- Two-sample t test, equal variances, two-sided (source lines 20-45). -/
def twoSampleP (g : GMath K) (groupA groupB : List K) : TestResult K :=
  let n1 : K := groupA.length
  let n2 : K := groupB.length
  let mean1 := mean groupA
  let mean2 := mean groupB
  let var1 := variance groupA
  let var2 := variance groupB
  let df := n1 + n2 - 2
  let pooled := ((n1 - 1) * var1 + (n2 - 1) * var2) / df
  let se := g.sqrt (pooled * (1 / n1 + 1 / n2))
  let t := (mean1 - mean2) / se
  let cdf := studentTCdf g t df
  let p := 2 * (1 - if 0 ≤ t then cdf else 1 - cdf)
  ⟨t, df, p⟩

/-- The p-only accessor (source lines 50-52). -/
def tTestTwoSample (g : GMath K) (a b : List K) : K :=
  (twoSampleP g a b).p

/-- Division with its IEEE degenerate case kept explicit: a zero divisor
produces no finite real (in the source, NaN when the numerator is also zero,
otherwise a signed infinity), matching the silent division-by-zero
propagation the source exhibits. -/
noncomputable def jsDiv (x y : ℝ) : Option ℝ :=
  if y = 0 then none else some (x / y)

/-- Square root with its IEEE degenerate case kept explicit: a negative
argument produces NaN in the source. -/
noncomputable def jsSqrt (x : ℝ) : Option ℝ :=
  if x < 0 then none else some (Real.sqrt x)

/-- The t statistic of `twoSampleP` (source lines 24-38) recomputed with
every division, and the square root, carrying their IEEE degenerate cases:
`none` stands for a non-finite intermediate value (NaN or a signed
infinity), which the source propagates silently instead of raising an
error.  On inputs where no divisor vanishes and the square-root argument is
nonnegative, this agrees with the `t` component of `twoSampleP`. -/
noncomputable def twoSampleT_js (groupA groupB : List ℝ) : Option ℝ :=
  let n1 : ℝ := groupA.length
  let n2 : ℝ := groupB.length
  (jsDiv groupA.sum n1).bind fun mean1 =>
  (jsDiv groupB.sum n2).bind fun mean2 =>
  (jsDiv ((groupA.map fun v => (v - mean1) ^ 2).sum) (n1 - 1)).bind fun var1 =>
  (jsDiv ((groupB.map fun v => (v - mean2) ^ 2).sum) (n2 - 1)).bind fun var2 =>
  (jsDiv ((n1 - 1) * var1 + (n2 - 1) * var2) (n1 + n2 - 2)).bind fun pooled =>
  (jsDiv 1 n1).bind fun i1 =>
  (jsDiv 1 n2).bind fun i2 =>
  (jsSqrt (pooled * (i1 + i2))).bind fun se =>
  jsDiv (mean1 - mean2) se

/-- Box-Muller normal sampler (source lines 7-14), with the two uniform
draws `u1, u2` it consumes from `Math.random()` made explicit arguments
(first draw feeds the logarithm, second the cosine). -/
def randomNormal (g : GMath K) (mu sigma u1 u2 : K) : K :=
  mu + sigma * g.sqrt (-2 * g.log u1) * g.cos (2 * g.pi * u2)

/-- One group of `n` normal draws, as built by `Array.from` of length `n`
applying `randomNormal(mu, sigma)` in the worker: the j-th sample consumes
the uniform draws numbered `k + 2j` and `k + 2j + 1` from the entropy
stream `u`. -/
def drawSamples (g : GMath K) (u : ℕ → K) (k : ℕ) (mu sigma : K) (n : ℕ) : List K :=
  (List.range n).map fun j => randomNormal g mu sigma (u (k + 2 * j)) (u (k + 2 * j + 1))

/-- The trial loop of the worker (src/unnamed/part_000, lines 12-17),
threading the position `k` in the entropy stream: each trial draws `n`
samples from Normal(0, sigma) into groupA, then `n` samples from
Normal(delta, sigma) into groupB (consuming `4n` uniforms in total), and
appends `tTestTwoSample(a, b)`. -/
def simLoop (g : GMath K) (u : ℕ → K) (delta sigma : K) (n : ℕ) : ℕ → ℕ → List K
  | _, 0 => []
  | k, t + 1 =>
    let a := drawSamples g u k 0 sigma n
    let b := drawSamples g u (k + 2 * n) delta sigma n
    tTestTwoSample g a b :: simLoop g u delta sigma n (k + 4 * n) t

/-- The simulation driver dispatched to the worker: `trials` sequential
trials starting at position 0 of the entropy stream. -/
def runSimulation (g : GMath K) (u : ℕ → K) (delta sigma : K) (n trials : ℕ) : List K :=
  simLoop g u delta sigma n 0 trials

/-- The program itself: the instantiation at `ℝ` with the genuine real
exponential, logarithm, square root, sine, cosine and pi (noncomputable
exactly because those real functions are). -/
noncomputable def realMath : GMath ℝ :=
  ⟨Real.exp, Real.log, Real.sqrt, Real.sin, Real.cos, Real.pi⟩

/-- Casting the `betacf` loop state from `ℚ` to `ℝ`, field by field. -/
def castState (s : BcfState ℚ) : BcfState ℝ :=
  ⟨(s.am : ℝ), (s.bm : ℝ), (s.az : ℝ), (s.bz : ℝ), (s.em : ℝ)⟩

/-! ## Transport of `betacf` along the cast from `ℚ` to `ℝ` -/

attribute [local semireducible] Rat.add Rat.mul Rat.sub Rat.inv Rat.ofScientific

lemma EPS_cast : ((EPS : ℚ) : ℝ) = EPS := by
  unfold EPS
  norm_cast

lemma bcfStep_cast (x a b : ℚ) (s : BcfState ℚ) :
    bcfStep (K := ℝ) x a b (castState s) = castState (bcfStep x a b s) := by
  simp only [bcfStep, castState, BcfState.mk.injEq]
  refine ⟨?_, ?_, ?_, ?_, ?_⟩ <;> push_cast <;> ring

lemma bcfInit_cast (x a b : ℚ) :
    bcfInit (K := ℝ) x a b = castState (bcfInit x a b) := by
  simp only [bcfInit, castState, BcfState.mk.injEq]
  refine ⟨?_, ?_, ?_, ?_, ?_⟩ <;> push_cast <;> ring

lemma ratCond (p q : ℚ) :
    (|(p : ℝ) - (q : ℝ)| < EPS * |(p : ℝ)|) ↔ |p - q| < EPS * |p| := by
  rw [← EPS_cast, ← Rat.cast_sub, ← Rat.cast_abs, ← Rat.cast_abs, ← Rat.cast_mul, Rat.cast_lt]

lemma bcfLoop_cast (x a b : ℚ) (fuel : ℕ) :
    ∀ s : BcfState ℚ,
      bcfLoop (K := ℝ) x a b fuel (castState s) = ((bcfLoop x a b fuel s : ℚ) : ℝ) := by
  induction fuel with
  | zero => intro s; rfl
  | succ f ih =>
    intro s
    simp only [bcfLoop]
    rw [bcfStep_cast]
    simp only [castState]
    have hiff := ratCond (bcfStep x a b s).az s.az
    by_cases h : |(bcfStep x a b s).az - s.az| < EPS * |(bcfStep x a b s).az|
    · rw [if_pos (hiff.mpr h), if_pos h]
    · rw [if_neg (fun hr => h (hiff.mp hr)), if_neg h]
      exact ih _

lemma betacf_cast (x a b : ℚ) :
    betacf (K := ℝ) x a b = ((betacf x a b : ℚ) : ℝ) := by
  unfold betacf
  rw [bcfInit_cast, bcfLoop_cast]

/-! ## Helper lemmas shared by several claims -/

lemma logGammaRec_of_not_lt (g : GMath K) (fuel : ℕ) (z : K) (h : ¬ z < 0.5) :
    logGammaRec g (fuel + 1) z = some (lanczos g z) := by
  simp only [logGammaRec, if_neg h]

lemma logGammaRec_of_lt (g : GMath K) (fuel : ℕ) (z : K) (h : z < 0.5) :
    logGammaRec g (fuel + 1) z =
      (logGammaRec g fuel (1 - z)).map fun r =>
        g.log g.pi - g.log (g.sin (g.pi * z)) - r := by
  simp only [logGammaRec, if_pos h]

lemma rib_one (g : GMath ℝ) (a b : ℝ) :
    regularizedIncompleteBeta g 1 a b = 1 := by
  simp only [regularizedIncompleteBeta]
  rw [if_neg (by norm_num), if_pos le_rfl]

lemma studentTCdf_zero (g : GMath ℝ) (v : ℝ) (hv : v ≠ 0) :
    studentTCdf g 0 v = 0.5 := by
  simp only [studentTCdf]
  rw [if_pos le_rfl]
  have hx : v + 0 * 0 = v := by ring
  rw [hx, div_self hv, rib_one]
  norm_num

/-! ## Claims -/

/-- Claim C4: for every real t and degrees of freedom v, `studentTCdf(t, v)`
computes `x = v/(v + t*t)` and `ib = regularizedIncompleteBeta(x, v/2, 0.5)`,
and returns `1 - 0.5*ib` when `t ≥ 0` and `0.5*ib` when `t < 0`. -/
theorem studentTCdf_spec (t v : ℝ) :
    studentTCdf realMath t v =
      if 0 ≤ t then
        1 - 0.5 * regularizedIncompleteBeta realMath (v / (v + t * t)) (v / 2) 0.5
      else
        0.5 * regularizedIncompleteBeta realMath (v / (v + t * t)) (v / 2) 0.5 := rfl

/-- Claim C7: boundary policy of `regularizedIncompleteBeta`: for every a, b
it returns exactly 0 whenever `x ≤ 0` and exactly 1 whenever `x ≥ 1`; the
definition returns in those branches before the logarithms or the continued
fraction are reached. -/
theorem rib_boundary (a b x : ℝ) :
    (x ≤ 0 → regularizedIncompleteBeta realMath x a b = 0) ∧
    (1 ≤ x → regularizedIncompleteBeta realMath x a b = 1) := by
  constructor
  · intro h
    simp only [regularizedIncompleteBeta, if_pos h]
  · intro h
    have h0 : ¬ x ≤ 0 := by linarith
    simp only [regularizedIncompleteBeta, if_neg h0, if_pos h]

/-- Witness for C7 at the concrete boundary inputs x = 0 and x = 1 with
a = b = 1. -/
theorem rib_boundary_witness :
    regularizedIncompleteBeta realMath 0 1 1 = 0 ∧
    regularizedIncompleteBeta realMath 1 1 1 = 1 :=
  ⟨(rib_boundary 1 1 0).1 le_rfl, (rib_boundary 1 1 1).2 le_rfl⟩

/-- Claim C10: `logGamma` terminates for every real argument z with recursion
depth at most 1: the faithful fueled recursion already succeeds with fuel for
one recursive call (any fuel `n + 2`), returning the value of the total
`logGamma`, and when `z < 0.5` the recursive argument `1 - z` is not again
below `0.5`. -/
theorem logGamma_depth (z : ℝ) (n : ℕ) :
    logGammaRec realMath (n + 2) z = some (logGamma realMath z) ∧
    (z < 0.5 → ¬ (1 - z : ℝ) < 0.5) := by
  have hrefl : ∀ w : ℝ, w < 0.5 → ¬ (1 - w : ℝ) < 0.5 := by
    intro w hw
    push_neg
    linarith
  refine ⟨?_, hrefl z⟩
  by_cases h : z < 0.5
  · have h2 : ¬ (1 - z : ℝ) < 0.5 := hrefl z h
    show logGammaRec realMath ((n + 1) + 1) z = some (logGamma realMath z)
    rw [logGammaRec_of_lt realMath (n + 1) z h,
      logGammaRec_of_not_lt realMath n (1 - z) h2, Option.map_some',
      logGamma, if_pos h]
  · show logGammaRec realMath ((n + 1) + 1) z = some (logGamma realMath z)
    rw [logGammaRec_of_not_lt realMath (n + 1) z h, logGamma, if_neg h]

/-- Claim C5: for every real t and every v > 0 the Student-t CDF satisfies
`studentTCdf(t,v) + studentTCdf(-t,v) = 1` (here exactly, the real-number
idealisation of the floating tolerance), and `studentTCdf(0,v) = 0.5`. -/
theorem studentTCdf_symm (t v : ℝ) (hv : 0 < v) :
    studentTCdf realMath t v + studentTCdf realMath (-t) v = 1 ∧
    studentTCdf realMath 0 v = 0.5 := by
  have h0 : studentTCdf realMath 0 v = 0.5 := studentTCdf_zero _ _ hv.ne'
  refine ⟨?_, h0⟩
  rcases lt_trichotomy t 0 with ht | ht | ht
  · have hB : ¬ (0 ≤ t) := not_le.mpr ht
    have hnt : (0:ℝ) ≤ -t := by linarith
    simp only [studentTCdf, neg_mul_neg]
    rw [if_neg hB, if_pos hnt]
    ring
  · rw [ht, neg_zero, h0]
    norm_num
  · have hB : (0:ℝ) ≤ t := le_of_lt ht
    have hnt : ¬ ((0:ℝ) ≤ -t) := by push_neg; linarith
    simp only [studentTCdf, neg_mul_neg]
    rw [if_pos hB, if_neg hnt]
    ring

/-- Witness for C5 at t = 1, v = 1. -/
theorem studentTCdf_symm_witness :
    (0:ℝ) < 1 ∧
      (studentTCdf realMath 1 1 + studentTCdf realMath (-1) 1 = 1 ∧
        studentTCdf realMath 0 1 = 0.5) :=
  ⟨zero_lt_one, studentTCdf_symm 1 1 zero_lt_one⟩

/-- Claim C6, counterexample: the constant identical samples [1, 1] are in
the claimed domain (identical, length 2), but there the source computes
var1 = var2 = 0, pooled = 0, se = sqrt 0 = 0, and then
t = (mean1 - mean2)/se = 0/0, which is NaN, not 0; under the refinement
`twoSampleT_js` that keeps the IEEE degenerate cases explicit, the t
statistic at this input is `none` (no finite real), in particular not 0, so
the program does not return t = 0 and p = 1 on every identical pair. -/
theorem twoSampleP_identical_cex :
    twoSampleT_js [(1:ℝ), 1] [(1:ℝ), 1] = none ∧
      twoSampleT_js [(1:ℝ), 1] [(1:ℝ), 1] ≠ some 0 := by
  have h : twoSampleT_js [(1:ℝ), 1] [(1:ℝ), 1] = none := by
    simp only [twoSampleT_js, jsDiv, jsSqrt, List.sum_cons, List.sum_nil, List.map_cons,
      List.map_nil, List.length_cons, List.length_nil]
    norm_num
  exact ⟨h, by simp [h]⟩

/-- Claim C6 as amended: on two element-wise identical samples of length at
least 2 whose sample variance is nonzero (the sample is not constant, so the
standard error does not vanish and the division defining t is not the IEEE
0/0 of the counterexample), the test returns exactly t = 0 and p = 1; the t
statistic is 0 also in the refinement `twoSampleT_js` that keeps the IEEE
degenerate cases explicit, so no division-by-zero path is being collapsed. -/
theorem twoSampleP_identical_nonconst (xs : List ℝ) (h2 : 2 ≤ xs.length)
    (hvar : variance xs ≠ 0) :
    twoSampleT_js xs xs = some 0 ∧
      (twoSampleP realMath xs xs).t = 0 ∧ (twoSampleP realMath xs xs).p = 1 := by
  have hn : (2:ℝ) ≤ (xs.length : ℝ) := by exact_mod_cast h2
  have hnpos : (0:ℝ) < (xs.length : ℝ) := by linarith
  have hn0 : ((xs.length : ℝ)) ≠ 0 := hnpos.ne'
  have hn1pos : (0:ℝ) < (xs.length : ℝ) - 1 := by linarith
  have hn1 : ((xs.length : ℝ) - 1) ≠ 0 := hn1pos.ne'
  have hdf0 : (0:ℝ) < (xs.length : ℝ) + (xs.length : ℝ) - 2 := by linarith
  have hdf : ((xs.length : ℝ) + (xs.length : ℝ) - 2) ≠ 0 := hdf0.ne'
  have hsq : 0 ≤ ((xs.map fun v => (v - xs.sum / (xs.length : ℝ)) ^ 2).sum) := by
    apply List.sum_nonneg
    intro y hy
    rcases List.mem_map.mp hy with ⟨v, _, rfl⟩
    exact sq_nonneg _
  have hvar' : variance xs =
      ((xs.map fun v => (v - xs.sum / (xs.length : ℝ)) ^ 2).sum) /
        ((xs.length : ℝ) - 1) := rfl
  have hV : (0:ℝ) <
      ((xs.map fun v => (v - xs.sum / (xs.length : ℝ)) ^ 2).sum) /
        ((xs.length : ℝ) - 1) := by
    have h0 : (0:ℝ) ≤
        ((xs.map fun v => (v - xs.sum / (xs.length : ℝ)) ^ 2).sum) /
          ((xs.length : ℝ) - 1) := div_nonneg hsq hn1pos.le
    refine h0.lt_of_ne fun h => hvar ?_
    rw [hvar', ← h]
  refine ⟨?_, ?_, ?_⟩
  · have hS : (0:ℝ) <
        (((xs.length : ℝ) - 1) *
            ((xs.map fun v => (v - xs.sum / (xs.length : ℝ)) ^ 2).sum /
              ((xs.length : ℝ) - 1)) +
          ((xs.length : ℝ) - 1) *
            ((xs.map fun v => (v - xs.sum / (xs.length : ℝ)) ^ 2).sum /
              ((xs.length : ℝ) - 1))) /
          ((xs.length : ℝ) + (xs.length : ℝ) - 2) *
          (1 / (xs.length : ℝ) + 1 / (xs.length : ℝ)) := by
      have hp1 : (0:ℝ) <
          ((xs.length : ℝ) - 1) *
              ((xs.map fun v => (v - xs.sum / (xs.length : ℝ)) ^ 2).sum /
                ((xs.length : ℝ) - 1)) +
            ((xs.length : ℝ) - 1) *
              ((xs.map fun v => (v - xs.sum / (xs.length : ℝ)) ^ 2).sum /
                ((xs.length : ℝ) - 1)) := by
        have := mul_pos hn1pos hV
        linarith
      have hp2 : (0:ℝ) < 1 / (xs.length : ℝ) + 1 / (xs.length : ℝ) := by
        have := one_div_pos.mpr hnpos
        linarith
      exact mul_pos (div_pos hp1 hdf0) hp2
    simp only [twoSampleT_js, jsDiv, jsSqrt, if_neg hn0, if_neg hn1, if_neg hdf,
      Option.some_bind]
    rw [if_neg (not_lt.mpr hS.le), Option.some_bind,
      if_neg ((Real.sqrt_pos.mpr hS).ne'), sub_self, zero_div]
  · simp only [twoSampleP, sub_self, zero_div]
  · simp only [twoSampleP, sub_self, zero_div]
    rw [if_pos le_rfl, studentTCdf_zero _ _ hdf]
    norm_num

/-- Witness for the amended C6 on the nonconstant sample [0, 1]. -/
theorem twoSampleP_identical_nonconst_witness :
    (2 ≤ ([0, 1] : List ℝ).length ∧ variance ([0, 1] : List ℝ) ≠ 0) ∧
      (twoSampleT_js [(0:ℝ), 1] [(0:ℝ), 1] = some 0 ∧
        (twoSampleP realMath [0, 1] [0, 1]).t = 0 ∧
        (twoSampleP realMath [0, 1] [0, 1]).p = 1) :=
  ⟨⟨by simp, by norm_num [variance, mean, List.sum_cons, List.sum_nil, List.map_cons,
      List.map_nil, List.length_cons, List.length_nil]⟩,
    twoSampleP_identical_nonconst [0, 1] (by simp)
      (by norm_num [variance, mean, List.sum_cons, List.sum_nil, List.map_cons,
        List.map_nil, List.length_cons, List.length_nil])⟩

/-- Claim C3: on every pair of input samples, `twoSampleP` returns the record
whose `t` is `(mean1 - mean2)/se` with `se = sqrt(pooled*(1/n1 + 1/n2))` and
`pooled = ((n1-1)*var1 + (n2-1)*var2)/df`, whose `df` is `n1 + n2 - 2`, and
whose `p` is `2*(1 - cdf)` if `t ≥ 0` and `2*(1 - (1 - cdf))` otherwise,
where `cdf = studentTCdf(t, df)` and the means and variances are the sample
means and unbiased n-1-denominator variances of the two groups. -/
theorem twoSampleP_spec (groupA groupB : List ℝ) :
    twoSampleP realMath groupA groupB =
      ⟨(mean groupA - mean groupB) /
          realMath.sqrt ((((groupA.length : ℝ) - 1) * variance groupA +
              ((groupB.length : ℝ) - 1) * variance groupB) /
              ((groupA.length : ℝ) + (groupB.length : ℝ) - 2) *
            (1 / (groupA.length : ℝ) + 1 / (groupB.length : ℝ))),
        (groupA.length : ℝ) + (groupB.length : ℝ) - 2,
        if 0 ≤ (mean groupA - mean groupB) /
            realMath.sqrt ((((groupA.length : ℝ) - 1) * variance groupA +
                ((groupB.length : ℝ) - 1) * variance groupB) /
                ((groupA.length : ℝ) + (groupB.length : ℝ) - 2) *
              (1 / (groupA.length : ℝ) + 1 / (groupB.length : ℝ))) then
          2 * (1 - studentTCdf realMath
            ((mean groupA - mean groupB) /
              realMath.sqrt ((((groupA.length : ℝ) - 1) * variance groupA +
                  ((groupB.length : ℝ) - 1) * variance groupB) /
                  ((groupA.length : ℝ) + (groupB.length : ℝ) - 2) *
                (1 / (groupA.length : ℝ) + 1 / (groupB.length : ℝ))))
            ((groupA.length : ℝ) + (groupB.length : ℝ) - 2))
        else
          2 * (1 - (1 - studentTCdf realMath
            ((mean groupA - mean groupB) /
              realMath.sqrt ((((groupA.length : ℝ) - 1) * variance groupA +
                  ((groupB.length : ℝ) - 1) * variance groupB) /
                  ((groupA.length : ℝ) + (groupB.length : ℝ) - 2) *
                (1 / (groupA.length : ℝ) + 1 / (groupB.length : ℝ))))
            ((groupA.length : ℝ) + (groupB.length : ℝ) - 2)))⟩ := by
  simp only [twoSampleP, TestResult.mk.injEq]
  refine ⟨trivial, trivial, ?_⟩
  split_ifs <;> ring

/-- Every trial of the simulation loop, started at position k of the entropy
stream, reads its groupA uniforms at offset k + 4n·i and its groupB uniforms
2n further, and contributes the p-value of those two groups. -/
lemma simLoop_spec (g : GMath ℝ) (u : ℕ → ℝ) (delta sigma : ℝ) (n : ℕ) :
    ∀ (trials k : ℕ),
      simLoop g u delta sigma n k trials =
        (List.range trials).map fun i =>
          tTestTwoSample g
            (drawSamples g u (k + 4 * n * i) 0 sigma n)
            (drawSamples g u (k + 4 * n * i + 2 * n) delta sigma n) := by
  intro trials
  induction trials with
  | zero => intro k; rfl
  | succ t ih =>
    intro k
    rw [simLoop, List.range_succ_eq_map, List.map_cons, List.map_map]
    have h0 : k + 4 * n * 0 = k := by ring
    rw [h0]
    have h1 : ((fun i =>
        tTestTwoSample g
          (drawSamples g u (k + 4 * n * i) 0 sigma n)
          (drawSamples g u (k + 4 * n * i + 2 * n) delta sigma n)) ∘ Nat.succ) =
        fun i =>
          tTestTwoSample g
            (drawSamples g u (k + 4 * n + 4 * n * i) 0 sigma n)
            (drawSamples g u (k + 4 * n + 4 * n * i + 2 * n) delta sigma n) := by
      funext i
      have e1 : k + 4 * n * Nat.succ i = k + 4 * n + 4 * n * i := by
        simp only [Nat.succ_eq_add_one]
        ring
      rw [Function.comp_apply, e1]
    rw [h1, ih (k + 4 * n)]

/-- Claim C8: for every request, the simulation loop produces the list whose
i-th entry (in trial-index order) is the p-value, obtained through the p-only
accessor `tTestTwoSample`, of the i-th trial, whose groupA consists of n
draws from Normal(0, sigma) and whose groupB of n draws from
Normal(delta, sigma); in particular the output length is exactly `trials`,
the empty list for `trials = 0`. -/
theorem runSimulation_spec (u : ℕ → ℝ) (delta sigma : ℝ) (n trials : ℕ) :
    runSimulation realMath u delta sigma n trials =
      ((List.range trials).map fun i =>
        tTestTwoSample realMath
          (drawSamples realMath u (4 * n * i) 0 sigma n)
          (drawSamples realMath u (4 * n * i + 2 * n) delta sigma n)) ∧
    (runSimulation realMath u delta sigma n trials).length = trials := by
  have h := simLoop_spec realMath u delta sigma n trials 0
  have h0 : ∀ i : ℕ, 0 + 4 * n * i = 4 * n * i := fun i => by ring
  constructor
  · rw [runSimulation, h]
    refine List.map_congr_left fun i _ => ?_
    rw [h0 i]
  · rw [runSimulation, h, List.length_map, List.length_range]

lemma bcfLoop_zero (x a b : K) (s : BcfState K) :
    bcfLoop x a b 0 s = s.az := rfl

lemma bcfLoop_succ (x a b : K) (f : ℕ) (s : BcfState K) :
    bcfLoop x a b (f + 1) s =
      if |(bcfStep x a b s).az - s.az| < EPS * |(bcfStep x a b s).az| then
        (bcfStep x a b s).az
      else bcfLoop x a b f (bcfStep x a b s) := rfl

/-- First-hitting description of the early-exit loop of `betacf`, for the
window of iterations `k+1 .. k+f` run from the state reached after `k`
iterations. -/
lemma bcfLoop_iter (x a b : K) :
    ∀ (f k : ℕ),
      (∃ m, k < m ∧ m ≤ k + f ∧ bcfConv x a b m ∧
        (∀ j, k < j → j < m → ¬ bcfConv x a b j) ∧
        bcfLoop x a b f ((bcfStep x a b)^[k] (bcfInit x a b)) = bcfApprox x a b m) ∨
      ((∀ j, k < j → j ≤ k + f → ¬ bcfConv x a b j) ∧
        bcfLoop x a b f ((bcfStep x a b)^[k] (bcfInit x a b)) = bcfApprox x a b (k + f)) := by
  intro f
  induction f with
  | zero =>
    intro k
    right
    exact ⟨fun j hj1 hj2 => absurd hj1 (by omega), rfl⟩
  | succ f ih =>
    intro k
    have hit : (bcfStep x a b)^[k + 1] (bcfInit x a b) =
        bcfStep x a b ((bcfStep x a b)^[k] (bcfInit x a b)) :=
      Function.iterate_succ_apply' _ _ _
    have hconv :
        (|(bcfStep x a b ((bcfStep x a b)^[k] (bcfInit x a b))).az -
            ((bcfStep x a b)^[k] (bcfInit x a b)).az| <
          EPS * |(bcfStep x a b ((bcfStep x a b)^[k] (bcfInit x a b))).az|) ↔
          bcfConv x a b (k + 1) := by
      unfold bcfConv bcfApprox
      rw [Nat.add_sub_cancel, hit]
    by_cases hc : bcfConv x a b (k + 1)
    · left
      refine ⟨k + 1, Nat.lt_succ_self k, by omega, hc, ?_, ?_⟩
      · intro j hj1 hj2
        omega
      · rw [bcfLoop_succ, if_pos (hconv.mpr hc)]
        unfold bcfApprox
        rw [hit]
    · rcases ih (k + 1) with ⟨m, h1, h2, hcv, hmin, hval⟩ | ⟨hmin, hval⟩
      · left
        refine ⟨m, by omega, by omega, hcv, ?_, ?_⟩
        · intro j hj1 hj2
          rcases (by omega : j = k + 1 ∨ k + 1 < j) with rfl | hlt
          · exact hc
          · exact hmin j hlt hj2
        · rw [bcfLoop_succ, if_neg (fun hr => hc (hconv.mp hr)), ← hit]
          exact hval
      · right
        refine ⟨?_, ?_⟩
        · intro j hj1 hj2
          rcases (by omega : j = k + 1 ∨ k + 1 < j) with rfl | hlt
          · exact hc
          · exact hmin j hlt (by omega)
        · rw [bcfLoop_succ, if_neg (fun hr => hc (hconv.mp hr)), ← hit, hval]
          congr 1
          omega

/-- Claim C9: for every input, `betacf` returns after at most `MAX_ITER = 200`
iterations: either some iteration `m ≤ 200` is the first whose approximant
changes by less than `EPS = 3e-7` times its own magnitude and `betacf` returns
that approximant early, or no iteration up to 200 converges and `betacf`
returns the approximant after the 200th iteration, with no error raised. -/
theorem betacf_loop_spec (x a b : ℝ) :
    (∃ m, 1 ≤ m ∧ m ≤ 200 ∧ bcfConv x a b m ∧
      (∀ j, 1 ≤ j → j < m → ¬ bcfConv x a b j) ∧
      betacf x a b = bcfApprox x a b m) ∨
    ((∀ j, 1 ≤ j → j ≤ 200 → ¬ bcfConv x a b j) ∧
      betacf x a b = bcfApprox x a b 200) := by
  have h := bcfLoop_iter x a b 200 0
  have hb : betacf x a b = bcfLoop x a b 200 ((bcfStep x a b)^[0] (bcfInit x a b)) := rfl
  rcases h with ⟨m, h1, h2, hcv, hmin, hval⟩ | ⟨hmin, hval⟩
  · left
    exact ⟨m, by omega, by omega, hcv,
      fun j hj1 hj2 => hmin j (by omega) hj2, by rw [hb, hval]⟩
  · right
    refine ⟨fun j hj1 hj2 => hmin j (by omega) (by omega), ?_⟩
    rw [hb, hval]

/-- Claim C2 (refuted by the code): inside the interval, at x = 1/10, a = 20,
b = 200, the non-symm branch evaluates `betacf(1 - x, a, b)` on arguments for
which the exact continued-fraction approximant is negative, so the code
returns a value strictly greater than 1, outside the claimed interval [0,1]. -/
theorem rib_gt_one :
    1 < regularizedIncompleteBeta realMath (1/10 : ℝ) 20 200 := by
  have hcfq : (betacf ((9:ℚ)/10) 20 200 : ℚ) < 0 := by decide
  have hcf : betacf (K := ℝ) ((1:ℝ) - 1/10) 20 200 < 0 := by
    have e1 : ((1:ℝ) - 1/10) = (((9:ℚ)/10 : ℚ) : ℝ) := by push_cast; norm_num
    have e2 : (20:ℝ) = ((20:ℚ) : ℝ) := by norm_cast
    have e3 : (200:ℝ) = ((200:ℚ) : ℝ) := by norm_cast
    rw [e1, e2, e3, betacf_cast]
    exact_mod_cast hcfq
  simp only [regularizedIncompleteBeta]
  rw [if_neg (by norm_num : ¬ (1/10 : ℝ) ≤ 0),
    if_neg (by norm_num : ¬ (1:ℝ) ≤ 1/10),
    if_neg (by norm_num : ¬ (1/10 : ℝ) < (20 + 1) / (20 + 200 + 2))]
  have key : ∀ E : ℝ, 0 < E →
      1 < 1 - E * betacf ((1:ℝ) - 1/10) 20 200 / 200 := by
    intro E hE
    have h6 : E * betacf ((1:ℝ) - 1/10) 20 200 < 0 := mul_neg_of_pos_of_neg hE hcf
    have h7 : E * betacf ((1:ℝ) - 1/10) 20 200 / 200 < 0 :=
      div_neg_of_neg_of_pos h6 (by norm_num)
    linarith
  exact key _ (Real.exp_pos _)

/-- Claim C1 (refuted by the code): at x = 3/4, a = 2, b = 1 the non-symm
branch is taken and the code evaluates `betacf(1-x, a, b)` without swapping
the roles of a and b, so its return value differs from the claimed
`1 - bt*betacf(1-x, b, a)/b`. -/
theorem rib_no_swap_bug :
    regularizedIncompleteBeta realMath (3/4 : ℝ) 2 1 ≠
      1 - realMath.exp (logGamma realMath (2 + 1) - logGamma realMath 2 -
          logGamma realMath 1 + 2 * realMath.log (3/4) +
          1 * realMath.log (1 - 3/4)) *
        betacf ((1:ℝ) - 3/4) 1 2 / 1 := by
  have hq : ¬ ((betacf ((1:ℚ)/4) 2 1 : ℚ) = betacf ((1:ℚ)/4) 1 2) := by decide
  have hcf : betacf (K := ℝ) ((1:ℝ) - 3/4) 2 1 ≠ betacf (K := ℝ) ((1:ℝ) - 3/4) 1 2 := by
    have e1 : ((1:ℝ) - 3/4) = (((1:ℚ)/4 : ℚ) : ℝ) := by push_cast; norm_num
    have e2 : (2:ℝ) = ((2:ℚ) : ℝ) := by norm_cast
    have e3 : (1:ℝ) = ((1:ℚ) : ℝ) := by norm_cast
    rw [e1, e2, e3, betacf_cast, betacf_cast]
    intro h
    exact hq (by exact_mod_cast h)
  simp only [regularizedIncompleteBeta]
  rw [if_neg (by norm_num : ¬ (3/4 : ℝ) ≤ 0),
    if_neg (by norm_num : ¬ (1:ℝ) ≤ 3/4),
    if_neg (by norm_num : ¬ (3/4 : ℝ) < (2 + 1) / (2 + 1 + 2))]
  intro h
  simp only [div_one] at h
  exact hcf (mul_left_cancel₀ (Real.exp_ne_zero _) (sub_right_injective h))
